import Mathlib

/-!
Verification development for `server_relay.py` (BEAVER-server).

Strings are modelled as `List Char` (Python `str` is a sequence of code
points).  Each definition below is a direct shallow embedding of the
correspondingly named Python function in `server_relay.py`; stateful
handler code is embedded as explicit state-passing functions, and the
fallibility of the durable SQLite write is an explicit boolean parameter.
-/

namespace ServerRelay

/-- The character class `[A-Za-z0-9_\-]` of the regex in `sanitize_session`
(ASCII letters, ASCII digits, underscore, hyphen). -/
def validChar (c : Char) : Bool :=
  c.isAlpha || c.isDigit || c == '_' || c == '-'

/-- Embedding of `re.sub(r"[^A-Za-z0-9_\-]+", "_", value)`: every maximal
run of characters outside the class is replaced by a single `_`.  The
boolean flag records whether the previous character was part of an
invalid run (so that a run contributes only one `_`). -/
def subInvalidAux : Bool → List Char → List Char
  | _, [] => []
  | prevInvalid, c :: cs =>
    if validChar c then c :: subInvalidAux false cs
    else if prevInvalid then subInvalidAux true cs
    else '_' :: subInvalidAux true cs

/-- Shorthand for `re.sub(r"[^A-Za-z0-9_\-]+", "_", value)`. -/
def reSubInvalid (l : List Char) : List Char := subInvalidAux false l

/-- The stripped character set of `s.strip("_")`. -/
def isUnd (c : Char) : Bool := c == '_'

/-- Remove leading underscores. -/
def dropUnd (l : List Char) : List Char := l.dropWhile isUnd

/-- Remove trailing underscores. -/
def rstripUnd (l : List Char) : List Char := (dropUnd l.reverse).reverse

/-- Embedding of `s.strip("_")`: removes leading and trailing `_`. -/
def pyStrip (l : List Char) : List Char := rstripUnd (dropUnd l)

/-- Embedding of `sanitize_session` from `server_relay.py`:
`if not value: return "default"`, replace invalid runs by `_`, strip `_`
from both ends, `if not s: return "default"`, `return s[:64]`.
The Python falsiness test `not value` is `value = []` for a string input
(a `None` argument behaves like the empty string and is modelled by it).
The function is pure by construction, matching the side-effect-free
Python implementation. -/
def sanitize_session (value : List Char) : List Char :=
  if value = [] then "default".toList
  else
    let s := pyStrip (reSubInvalid value)
    if s = [] then "default".toList else s.take 64

/-- Start code points of the runs of ten consecutive decimal digits
(Unicode general category `Nd`, from the Unicode character database):
every `Nd` character lies in exactly one run `s, s+1, …, s+9`, holding
the decimal values `0…9` in order.  Python's `re` module, given a `str`
pattern without the `re.ASCII` flag, matches `\d` against exactly these
characters, and `int()` parses each to its decimal value. -/
def ndRunStarts : List Nat :=
  [48, 1632, 1776, 1984, 2406, 2534, 2662, 2790, 2918, 3046, 3174, 3302,
   3430, 3558, 3664, 3792, 3872, 4160, 4240, 6112, 6160, 6470, 6608, 6784,
   6800, 6992, 7088, 7232, 7248, 42528, 43216, 43264, 43472, 43504, 43600,
   44016, 65296, 66720, 68912, 69734, 69872, 69942, 70096, 70384, 70736,
   70864, 71248, 71360, 71472, 71904, 72016, 72784, 73040, 73120, 92768,
   92864, 93008, 120782, 120792, 120802, 120812, 120822, 123200, 123632,
   125264, 130032]

/-- The Python regex class `\d`: any Unicode decimal digit (`Nd`). -/
def isPyDigit (c : Char) : Bool :=
  ndRunStarts.any fun s => decide (s ≤ c.toNat) && decide (c.toNat < s + 10)

/-- Numeric value of a Unicode decimal digit, as `int()` computes it:
its offset within its `Nd` run. -/
def digVal (c : Char) : Nat :=
  match ndRunStarts.find? (fun s => decide (s ≤ c.toNat) && decide (c.toNat < s + 10)) with
  | some s => c.toNat - s
  | none => 0

/-- One attempt of the regex `(\d{1,2}):(\d{2})` anchored at the head of
the list: greedily try a two-digit hour, falling back to a one-digit
hour (the two cases are mutually exclusive since `':'` is not a digit).
Returns the numeric hour together with the two minute digit characters.
Digits are Unicode decimal digits, matching Python's `\d`. -/
def matchAt : List Char → Option (Nat × List Char)
  | d1 :: d2 :: c3 :: c4 :: c5 :: _ =>
    if isPyDigit d1 && isPyDigit d2 && c3 == ':' && isPyDigit c4 && isPyDigit c5 then
      some (digVal d1 * 10 + digVal d2, [c4, c5])
    else if isPyDigit d1 && d2 == ':' && isPyDigit c3 && isPyDigit c4 then
      some (digVal d1, [c3, c4])
    else none
  | [d1, d2, c3, c4] =>
    if isPyDigit d1 && d2 == ':' && isPyDigit c3 && isPyDigit c4 then
      some (digVal d1, [c3, c4])
    else none
  | _ => none

/-- Embedding of `re.search(r"(\d{1,2}):(\d{2})", value)`: the match at the leftmost
position where one exists. -/
def search_hhmm : List Char → Option (Nat × List Char)
  | [] => none
  | c :: cs =>
    match matchAt (c :: cs) with
    | some r => some r
    | none => search_hhmm cs

/-- Formatting `f"{h:02d}"` for the matched hour (which is at most 99, having come
from one or two digit characters). -/
def pad2 (n : Nat) : List Char :=
  if n < 10 then ['0', Nat.digitChar n]
  else [Nat.digitChar (n / 10), Nat.digitChar (n % 10)]

/-- Embedding of `to_hhmm` from `server_relay.py`.  A missing (`None`)
stored time is falsy in Python exactly like the empty string and is
modelled by `[]`. -/
def to_hhmm (value : List Char) : List Char :=
  if value = [] then []
  else
    match search_hhmm value with
    | some (h, mm) => pad2 h ++ ':' :: mm
    | none => value

/-- A message dictionary as built by `_on_new_comment` and returned by
`fetch_all_for`: keys `name`, `real_name`, `text`, `time`, `stamp`,
`stamp_url`.  Python `None` is `Option.none`. -/
structure Entry where
  name : List Char
  real_name : List Char
  text : List Char
  time : List Char
  stamp : Option (List Char)
  stamp_url : Option (List Char)
deriving DecidableEq, Repr

/-- A row of the per-session SQLite table `comments` (the non-id columns);
rows are kept in ascending `id` order, which `AUTOINCREMENT` makes the
insertion order. -/
structure Row where
  name : List Char
  real_name : List Char
  text : List Char
  time : List Char
  stamp_filename : Option (List Char)
deriving DecidableEq, Repr

/-- The derived URL `f"/static/stamp/{stamp}"`. -/
def stampUrl (s : List Char) : List Char := "/static/stamp/".toList ++ s

/-- Embedding of `f"/static/stamp/{stamp}" if stamp else None`: the URL is derived
from the stored filename, guarded by Python truthiness (`None` and the
empty string are both falsy). -/
def truthyStampUrl : Option (List Char) → Option (List Char)
  | some s => if s = [] then none else some (stampUrl s)
  | none => none

/-- Embedding of `insert_comment_for`: appends one row holding the
columns `(name, real_name, text, time, stamp_filename)`; the entry's
`stamp_url` key is not among the inserted columns. -/
def insert_comment_for (rows : List Row) (e : Entry) : List Row :=
  rows ++ [{ name := e.name, real_name := e.real_name, text := e.text,
             time := e.time, stamp_filename := e.stamp }]

/-- The dictionary `fetch_all_for` builds from one stored row:
`time` runs through `to_hhmm`, and `stamp_url` is recomputed from the
stored `stamp_filename`. -/
def fetchEntry (r : Row) : Entry :=
  { name := r.name, real_name := r.real_name, text := r.text,
    time := to_hhmm r.time, stamp := r.stamp_filename,
    stamp_url := truthyStampUrl r.stamp_filename }

/-- Embedding of `fetch_all_for`: all rows in ascending `id`
(= insertion) order, each converted by `fetchEntry`. -/
def fetch_all_for (rows : List Row) : List Entry := rows.map fetchEntry

/-- One entry of the stamp directory listing, as `os.listdir` +
`os.path.isfile` observe it. -/
structure DirEntry where
  name : List Char
  isFile : Bool
deriving DecidableEq, Repr

/-- The allowed sticker extensions of `list_stamps`. -/
def allowedExts : List (List Char) :=
  [".png".toList, ".jpg".toList, ".jpeg".toList, ".gif".toList,
   ".webp".toList, ".svg".toList]

/-- Index of the last `'.'` in a filename, if any. -/
def lastDotIdx (f : List Char) : Option Nat :=
  match f.reverse.findIdx? (· == '.') with
  | some j => some (f.length - 1 - j)
  | none => none

/-- Embedding of `os.path.splitext(f)[1]` for a bare filename (no path
separators): the extension starts at the last dot, except that a
basename consisting only of leading dots up to that position has no
extension. -/
def splitextExt (f : List Char) : List Char :=
  match lastDotIdx f with
  | some i => if (f.take i).any (fun c => c != '.') then f.drop i else []
  | none => []

/-- Embedding of `os.path.splitext(f)[1].lower()`; Python `str.lower` restricted to
the ASCII range, which is faithful on every character that could make
the extension equal one of the allowed (all-ASCII) extensions. -/
def lowerExt (f : List Char) : List Char := (splitextExt f).map Char.toLower

/-- Python string `<=`: lexicographic comparison by code points. -/
def lexLe : List Char → List Char → Bool
  | [], _ => true
  | _ :: _, [] => false
  | a :: as, b :: bs => if a = b then lexLe as bs else decide (a.toNat < b.toNat)

/-- Insertion into a sorted list of names, modelling `names.sort()`. -/
def insertName (x : List Char) : List (List Char) → List (List Char)
  | [] => [x]
  | y :: ys => if lexLe x y then x :: y :: ys else y :: insertName x ys

/-- Embedding of `names.sort()` as insertion sort with the Python order. -/
def sortNames : List (List Char) → List (List Char)
  | [] => []
  | x :: xs => insertName x (sortNames xs)

/-- Embedding of `list_stamps`: empty when the stamp folder is not a
directory; otherwise the regular files whose lowercased extension is
allowed, sorted by name, each paired with its derived URL. -/
def list_stamps (folderIsDir : Bool) (entries : List DirEntry) :
    List (List Char × List Char) :=
  if !folderIsDir then []
  else
    let names := (entries.filter fun e =>
      e.isFile && allowedExts.contains (lowerExt e.name)).map DirEntry.name
    (sortNames names).map fun n => (n, stampUrl n)

/-- Embedding of `valid = {s["name"] for s in list_stamps()}` — the set of catalog
names, as the list of first components. -/
def stampNames (folderIsDir : Bool) (entries : List DirEntry) :
    List (List Char) :=
  (list_stamps folderIsDir entries).map Prod.fst

/-- The `data` payload of a `new_comment` event: each field is `none`
when the key is absent from the client dictionary. -/
structure SubmitData where
  name : Option (List Char)
  real_name : Option (List Char)
  text : Option (List Char)
  stamp : Option (List Char)
  stamp_filename : Option (List Char)
deriving DecidableEq, Repr

/-- Python `a or b` on optional strings: `a` unless it is falsy
(`None` or the empty string), else `b`. -/
def pyOr (a b : Option (List Char)) : Option (List Char) :=
  match a with
  | some s => if s = [] then b else some s
  | none => b

/-- Embedding of `requested_stamp = data.get("stamp") or data.get("stamp_filename")`
followed by `if requested_stamp not in valid: requested_stamp = None`. -/
def requestedStamp (validNames : List (List Char)) (d : SubmitData) :
    Option (List Char) :=
  match pyOr d.stamp d.stamp_filename with
  | some s => if validNames.contains s then some s else none
  | none => none

/-- Python truthiness of the resolved stamp (`if requested_stamp`). -/
def stampTruthy : Option (List Char) → Bool
  | some s => !s.isEmpty
  | none => false

/-- The sentinel display name `"名無し"` ("anonymous"). -/
def anonymousName : List Char := "名無し".toList

/-- The `entry` dictionary `_on_new_comment` builds: defaulted `name`
and `real_name`, `text` emptied when a truthy validated stamp is
attached, the server-assigned time `now`, the validated stamp and its
derived URL. -/
def mkEntry (validNames : List (List Char)) (now : List Char)
    (d : SubmitData) : Entry :=
  let rs := requestedStamp validNames d
  { name := d.name.getD anonymousName,
    real_name := d.real_name.getD [],
    text := if stampTruthy rs then [] else d.text.getD [],
    time := now,
    stamp := rs,
    stamp_url := if stampTruthy rs then some (stampUrl (rs.getD [])) else none }

/-- The mutable state `_on_new_comment` touches for one resolved session:
the cached list `message_logs[session_key]` and the rows of that
session's database. -/
structure HState where
  cache : List Entry
  store : List Row
deriving DecidableEq, Repr

/-- Observable outcome of one `_on_new_comment` run: final cache and
store, the broadcast entry (if the handler reached the `emit`), the log
lines it wrote, and whether an exception escaped. -/
structure HResult where
  cache : List Entry
  store : List Row
  broadcast : Option Entry
  logs : List (List Char)
  raised : Bool
deriving DecidableEq, Repr

/-- The `logging.info` line of `_on_new_comment`: the stamp form when
the validated stamp is truthy, else the text form. -/
def logLine (sessionKey : List Char) (e : Entry) : List Char :=
  if stampTruthy e.stamp then
    "[".toList ++ sessionKey ++ "] ".toList ++ e.name ++
      ": [STAMP] ".toList ++ e.stamp.getD []
  else
    "[".toList ++ sessionKey ++ "] ".toList ++ e.name ++ ": ".toList ++ e.text

/-- Embedding of `_on_new_comment` after session resolution, with the
durable write's success as the explicit parameter `insertOk`.  The code
appends the entry to the cached list (under `storage_lock`) *before*
calling `insert_comment_for`; it has no exception handler, so a failing
insert propagates: the `emit` and the `logging.info` that follow the
insert never run, and nothing is logged about the failure. -/
def on_new_comment (insertOk : Bool) (validNames : List (List Char))
    (sessionKey now : List Char) (d : SubmitData) (st : HState) : HResult :=
  let e := mkEntry validNames now d
  let cache' := st.cache ++ [e]
  if insertOk then
    { cache := cache', store := insert_comment_for st.store e,
      broadcast := some e, logs := [logLine sessionKey e], raised := false }
  else
    { cache := cache', store := st.store,
      broadcast := none, logs := [], raised := true }

/-- State of the registry for one session key, instrumented with call
counters: whether the `comments` table exists yet, how many times
`init_db_for` was invoked, how many times a `CREATE TABLE` actually
created the table, how many times `fetch_all_for` was invoked, the
cached `message_logs` entry for the key, and the backing rows. -/
structure RegState where
  tableExists : Bool
  initCalls : Nat
  createEvents : Nat
  fetchCalls : Nat
  cached : Option (List Entry)
  store : List Row
deriving DecidableEq, Repr

/-- The two atomic steps one `ensure_session` call performs for its key:
`init` is the unconditional `init_db_for(path)` call made *outside*
`storage_lock` (idempotent: `CREATE TABLE IF NOT EXISTS`), and
`lockedEnsure` is the `with storage_lock:` block that loads and caches
the history only if the key is not yet in `message_logs`. -/
inductive RegAction where
  | init
  | lockedEnsure
deriving DecidableEq, Repr

/-- Effect of one atomic registry action. -/
def stepReg (st : RegState) : RegAction → RegState
  | .init =>
    { st with initCalls := st.initCalls + 1,
              createEvents := st.createEvents + (if st.tableExists then 0 else 1),
              tableExists := true }
  | .lockedEnsure =>
    match st.cached with
    | some _ => st
    | none => { st with fetchCalls := st.fetchCalls + 1,
                        cached := some (fetch_all_for st.store) }

/-- Run a sequence of registry actions. -/
def runReg (st : RegState) (acts : List RegAction) : RegState :=
  acts.foldl stepReg st

/-- Interleaving relation: `Interleave l1 l2 l` says `l` is an interleaving of `l1` and `l2`
(each kept in order).  Two concurrent `ensure_session` calls execute
some interleaving of their respective `[init, lockedEnsure]` sequences,
since each of the two steps is atomic (`lockedEnsure` by the lock,
`init` by SQLite's serialization of the idempotent DDL). -/
inductive Interleave : List RegAction → List RegAction → List RegAction → Prop where
  | nil : Interleave [] [] []
  | left {x xs ys zs} : Interleave xs ys zs → Interleave (x :: xs) ys (x :: zs)
  | right {y xs ys zs} : Interleave xs ys zs → Interleave xs (y :: ys) (y :: zs)

/-- The per-key map of session stores (one SQLite file per sanitized
key), for reasoning about appends interleaved across sessions. -/
def Stores := List Char → List Row

/-- One `insert_comment_for` against the store of one session key. -/
def appendOne (s : Stores) (p : List Char × Entry) : Stores :=
  fun k => if k = p.1 then insert_comment_for (s k) p.2 else s k

/-- A sequence of appends, possibly interleaving different sessions. -/
def runAppends (s : Stores) (ops : List (List Char × Entry)) : Stores :=
  ops.foldl appendOne s

/-! ### Helper lemmas about the sanitizer -/

theorem mem_subInvalidAux {c : Char} :
    ∀ (b : Bool) (l : List Char), c ∈ subInvalidAux b l → validChar c = true := by
  intro b l
  induction l generalizing b with
  | nil => intro h; simp [subInvalidAux] at h
  | cons a t ih =>
    intro h
    simp only [subInvalidAux] at h
    by_cases ha : validChar a
    · simp [ha] at h
      rcases h with h | h
      · exact h ▸ ha
      · exact ih false h
    · simp [ha] at h
      by_cases hb : b
      · simp [hb] at h; exact ih true h
      · simp [hb] at h
        rcases h with h | h
        · subst h; decide
        · exact ih true h

theorem subInvalidAux_eq_self {l : List Char}
    (h : ∀ c ∈ l, validChar c = true) : ∀ b, subInvalidAux b l = l := by
  induction l with
  | nil => intro b; rfl
  | cons a t ih =>
    intro b
    have ha : validChar a = true := h a (List.mem_cons_self a t)
    simp [subInvalidAux, ha]
    exact ih (fun c hc => h c (List.mem_cons_of_mem a hc)) false

theorem mem_dropUnd {c : Char} {l : List Char} (h : c ∈ dropUnd l) : c ∈ l :=
  ((List.dropWhile_suffix isUnd).sublist.subset) h

theorem mem_rstripUnd {c : Char} {l : List Char} (h : c ∈ rstripUnd l) : c ∈ l := by
  have h1 : c ∈ dropUnd l.reverse := by simpa [rstripUnd] using h
  exact List.mem_reverse.mp (mem_dropUnd h1)

theorem mem_pyStrip {c : Char} {l : List Char} (h : c ∈ pyStrip l) : c ∈ l :=
  mem_dropUnd (mem_rstripUnd h)

theorem head?_dropUnd {c : Char} :
    ∀ {l : List Char}, (dropUnd l).head? = some c → isUnd c = false := by
  intro l
  induction l with
  | nil => intro h; simp [dropUnd, List.dropWhile] at h
  | cons a t ih =>
    intro h
    by_cases ha : isUnd a
    · exact ih (by simpa [dropUnd, List.dropWhile, ha] using h)
    · simp [dropUnd, List.dropWhile, ha] at h
      simpa [← h] using ha

theorem dropUnd_eq_self {l : List Char}
    (h : ∀ c, l.head? = some c → isUnd c = false) : dropUnd l = l := by
  cases l with
  | nil => rfl
  | cons a t => simp [dropUnd, List.dropWhile, h a rfl]

theorem rstripUnd_front (l : List Char) : rstripUnd l <+: l := by
  have hsuf : dropUnd l.reverse <:+ l.reverse := List.dropWhile_suffix isUnd
  have : (rstripUnd l).reverse <:+ l.reverse := by
    simpa [rstripUnd] using hsuf
  exact List.reverse_suffix.mp this

theorem head?_of_front {c : Char} {p l : List Char}
    (hp : p <+: l) (h : p.head? = some c) : l.head? = some c := by
  rcases hp with ⟨t, rfl⟩
  cases p with
  | nil => simp at h
  | cons a q => simpa using h

theorem head?_pyStrip {c : Char} {l : List Char}
    (h : (pyStrip l).head? = some c) : isUnd c = false :=
  head?_dropUnd (head?_of_front (rstripUnd_front (dropUnd l)) h)

theorem rstripUnd_eq_self {l : List Char}
    (h : ∀ c, l.getLast? = some c → isUnd c = false) : rstripUnd l = l := by
  have hh : ∀ c, l.reverse.head? = some c → isUnd c = false := by
    intro c hc
    exact h c (by simpa [List.head?_reverse] using hc)
  simp [rstripUnd, dropUnd_eq_self hh]

theorem head?_take_some {α : Type} {c : α} {l : List α} {k : Nat}
    (h : (l.take k).head? = some c) : l.head? = some c := by
  cases l with
  | nil => simp at h
  | cons a t =>
    cases k with
    | zero => simp at h
    | succ n => simpa using h

/-- Every character of `sanitize_session x` lies in `[A-Za-z0-9_-]`. -/
theorem sanitize_session_chars (x : List Char) :
    ∀ c ∈ sanitize_session x, validChar c = true := by
  intro c hc
  by_cases hx : x = []
  · simp [sanitize_session, hx] at hc
    rcases hc with rfl | rfl | rfl | rfl | rfl | rfl | rfl <;> decide
  · simp only [sanitize_session, if_neg hx] at hc
    by_cases hs : pyStrip (reSubInvalid x) = []
    · simp [hs] at hc
      rcases hc with rfl | rfl | rfl | rfl | rfl | rfl | rfl <;> decide
    · simp only [if_neg hs] at hc
      exact mem_subInvalidAux false x (mem_pyStrip (List.take_subset 64 _ hc))

/-- The result of `sanitize_session` has length at most 64. -/
theorem sanitize_session_length (x : List Char) :
    (sanitize_session x).length ≤ 64 := by
  by_cases hx : x = []
  · rw [sanitize_session, if_pos hx]; decide
  · rw [sanitize_session, if_neg hx]
    by_cases hs : pyStrip (reSubInvalid x) = []
    · rw [if_pos hs]; decide
    · rw [if_neg hs]
      exact List.length_take_le 64 _

theorem sanitize_session_ne_nil (x : List Char) : sanitize_session x ≠ [] := by
  by_cases hx : x = []
  · rw [sanitize_session, if_pos hx]; decide
  · rw [sanitize_session, if_neg hx]
    by_cases hs : pyStrip (reSubInvalid x) = []
    · rw [if_pos hs]; decide
    · rw [if_neg hs]
      cases h : pyStrip (reSubInvalid x) with
      | nil => exact absurd h hs
      | cons a t => simp [h]

theorem sanitize_session_head? {x : List Char} {c : Char}
    (h : (sanitize_session x).head? = some c) : isUnd c = false := by
  by_cases hx : x = []
  · simp [sanitize_session, hx] at h
    simp [← h]; decide
  · simp only [sanitize_session, if_neg hx] at h
    by_cases hs : pyStrip (reSubInvalid x) = []
    · simp [hs] at h
      simp [← h]; decide
    · simp only [if_neg hs] at h
      exact head?_pyStrip (head?_take_some h)

/-! ### C6 — total safety of the sanitizer -/

/-- C6: for every raw string (an absent/`None` input behaving as the
empty string), `sanitize_session` always succeeds and returns a string
whose characters all lie in `[A-Za-z0-9_-]`, of length at most 64, and
it returns the literal `"default"` when the input is empty or when the
result of the run-replacement and stripping is empty.  Determinism and
freedom from side effects hold because the embedding is a pure function,
as is the Python original. -/
theorem sanitize_session_safe (x : List Char) :
    (∀ c ∈ sanitize_session x, validChar c = true)
    ∧ (sanitize_session x).length ≤ 64
    ∧ (x = [] → sanitize_session x = "default".toList)
    ∧ (pyStrip (reSubInvalid x) = [] → sanitize_session x = "default".toList) := by
  refine ⟨sanitize_session_chars x, sanitize_session_length x, ?_, ?_⟩
  · intro hx; rw [sanitize_session, if_pos hx]
  · intro hs
    by_cases hx : x = []
    · rw [sanitize_session, if_pos hx]
    · rw [sanitize_session, if_neg hx]
      simp only [hs, if_pos]

/-- Witness for C6 at the all-invalid input `"!!!"`. -/
theorem sanitize_session_safe_witness :
    sanitize_session "!!!".toList = "default".toList :=
  (sanitize_session_safe "!!!".toList).2.2.2 (by decide)

/-! ### C3 — idempotence of the sanitizer -/

/-- C3 counterexample: `sanitize_session` is *not* idempotent.  For the
65-character input of 63 `'a'`s, `'_'`, `'a'`, stripping happens before
truncation, so `s[:64]` re-exposes a trailing underscore that a second
application then strips. -/
theorem sanitize_session_not_idempotent :
    sanitize_session (sanitize_session (List.replicate 63 'a' ++ ['_', 'a']))
      ≠ sanitize_session (List.replicate 63 'a' ++ ['_', 'a']) := by decide

/-- C3 amended: `sanitize_session` is idempotent on every input whose
sanitized value does not end in `'_'` — the only exception, forced by
the counterexample, is a trailing underscore re-exposed by the final
64-character truncation. -/
theorem sanitize_session_idem (x : List Char)
    (h : (sanitize_session x).getLast? ≠ some '_') :
    sanitize_session (sanitize_session x) = sanitize_session x := by
  set y := sanitize_session x with hy
  have hy_ne : y ≠ [] := sanitize_session_ne_nil x
  have hy_valid : ∀ c ∈ y, validChar c = true := sanitize_session_chars x
  have hy_len : y.length ≤ 64 := sanitize_session_length x
  have hy_head : ∀ c, y.head? = some c → isUnd c = false := by
    intro c hc; exact sanitize_session_head? hc
  have hy_last : ∀ c, y.getLast? = some c → isUnd c = false := by
    intro c hc
    cases hcu : isUnd c with
    | false => rfl
    | true =>
      exfalso
      have : c = '_' := by
        have := hcu
        simp [isUnd] at this
        exact this
      exact h (this ▸ hc)
  have hsub : reSubInvalid y = y := subInvalidAux_eq_self hy_valid false
  have hdrop : dropUnd y = y := dropUnd_eq_self hy_head
  have hrstrip : rstripUnd y = y := rstripUnd_eq_self hy_last
  have hstrip : pyStrip (reSubInvalid y) = y := by
    rw [hsub]; unfold pyStrip; rw [hdrop, hrstrip]
  rw [sanitize_session, if_neg hy_ne]
  simp only [hstrip, if_neg hy_ne]
  exact List.take_of_length_le hy_len

/-- Witness for C3's amended theorem at the input `"abc"`. -/
theorem sanitize_session_idem_witness :
    sanitize_session (sanitize_session "abc".toList) =
      sanitize_session "abc".toList :=
  sanitize_session_idem "abc".toList (by decide)

/-! ### C7 — `stamp_url` is derived, never persisted -/

/-- C7: the durable store never persists `stamp_url` — the row written
by `insert_comment_for` is unchanged under any value of the entry's
`stamp_url` key — and on every read `fetch_all_for` recomputes
`stamp_url` from the stored `stamp_filename`: a URL when a stamp is
present (non-empty, per Python truthiness), `None` otherwise. -/
theorem stamp_url_never_persisted :
    (∀ (rows : List Row) (e : Entry) (u : Option (List Char)),
        insert_comment_for rows { e with stamp_url := u } = insert_comment_for rows e)
    ∧ (∀ rows : List Row,
        (fetch_all_for rows).map Entry.stamp_url
          = rows.map (fun r => truthyStampUrl r.stamp_filename))
    ∧ (∀ s : List Char, s ≠ [] → truthyStampUrl (some s) = some (stampUrl s))
    ∧ truthyStampUrl none = none := by
  refine ⟨fun rows e u => rfl, fun rows => ?_, fun s hs => ?_, rfl⟩
  · simp [fetch_all_for, fetchEntry]
  · simp [truthyStampUrl, hs]

/-- Witness for C7 at the stored filename `"a.png"`. -/
theorem stamp_url_never_persisted_witness :
    truthyStampUrl (some "a.png".toList) = some (stampUrl "a.png".toList) :=
  stamp_url_never_persisted.2.2.1 "a.png".toList (by decide)

/-! ### C8 — omitted display name defaults to the anonymous sentinel -/

/-- C8: a submission whose payload omits the `name` key yields a created
message whose display name is the anonymous sentinel `"名無し"`
(`data.get("name", "名無し")`). -/
theorem omitted_name_defaults (validNames : List (List Char))
    (now : List Char) (d : SubmitData) (h : d.name = none) :
    (mkEntry validNames now d).name = anonymousName := by
  simp [mkEntry, h]

/-- Witness for C8: a nameless text submission. -/
theorem omitted_name_defaults_witness :
    (mkEntry [] "12:00".toList
      { name := none, real_name := none, text := some "hi".toList,
        stamp := none, stamp_filename := none }).name = anonymousName :=
  omitted_name_defaults [] "12:00".toList _ rfl

/-! ### Catalog membership lemmas -/

theorem mem_insertName {x y : List Char} :
    ∀ {l : List (List Char)}, x ∈ insertName y l → x = y ∨ x ∈ l := by
  intro l
  induction l with
  | nil => intro h; simpa [insertName] using h
  | cons a t ih =>
    intro h
    simp only [insertName] at h
    by_cases hle : lexLe y a
    · simp [hle] at h
      rcases h with h | h | h
      · exact Or.inl h
      · exact Or.inr (by simp [h])
      · exact Or.inr (List.mem_cons_of_mem a h)
    · simp [hle] at h
      rcases h with h | h
      · exact Or.inr (by simp [h])
      · rcases ih h with h' | h'
        · exact Or.inl h'
        · exact Or.inr (List.mem_cons_of_mem a h')

theorem mem_sortNames {x : List Char} :
    ∀ {l : List (List Char)}, x ∈ sortNames l → x ∈ l := by
  intro l
  induction l with
  | nil => intro h; simp [sortNames] at h
  | cons a t ih =>
    intro h
    rcases mem_insertName h with h' | h'
    · simp [h']
    · exact List.mem_cons_of_mem a (ih h')

/-- Any name in the stamp catalog passed the extension filter. -/
theorem stampNames_allowed {s : List Char} {folderIsDir : Bool}
    {entries : List DirEntry} (h : s ∈ stampNames folderIsDir entries) :
    allowedExts.contains (lowerExt s) = true := by
  unfold stampNames list_stamps at h
  by_cases hd : folderIsDir
  · simp only [hd, Bool.not_true, if_neg (by decide : ¬ (false = true))] at h
    rw [List.map_map] at h
    have h1 : s ∈ sortNames ((entries.filter fun e =>
        e.isFile && allowedExts.contains (lowerExt e.name)).map DirEntry.name) := by
      simpa using h
    have h2 := mem_sortNames h1
    rcases List.mem_map.mp h2 with ⟨de, hde, rfl⟩
    have := List.of_mem_filter hde
    simp at this
    exact by simpa using this.2
  · simp [hd] at h

/-- Catalog names are never the empty string: the empty string has no
extension, so it cannot pass the allowed-extension filter. -/
theorem stampNames_ne_nil {s : List Char} {folderIsDir : Bool}
    {entries : List DirEntry} (h : s ∈ stampNames folderIsDir entries) :
    s ≠ [] := by
  intro hnil
  subst hnil
  have := stampNames_allowed h
  revert this
  decide

/-! ### C5 — an unknown stamp reference is dropped, not an error -/

/-- C5: a submission whose stamp reference names a file absent from the
current attachment catalog still succeeds: the validated stamp and its
URL are cleared, the client-supplied text is preserved, no exception is
raised, and the message is cached, persisted and broadcast normally. -/
theorem invalid_stamp_accepted (folderIsDir : Bool) (entries : List DirEntry)
    (sessionKey now : List Char) (d : SubmitData) (st : HState) (s : List Char)
    (h1 : pyOr d.stamp d.stamp_filename = some s)
    (h2 : s ∉ stampNames folderIsDir entries) :
    (mkEntry (stampNames folderIsDir entries) now d).stamp = none
    ∧ (mkEntry (stampNames folderIsDir entries) now d).stamp_url = none
    ∧ (mkEntry (stampNames folderIsDir entries) now d).text = d.text.getD []
    ∧ (on_new_comment true (stampNames folderIsDir entries) sessionKey now d st).raised
        = false
    ∧ (on_new_comment true (stampNames folderIsDir entries) sessionKey now d st).broadcast
        = some (mkEntry (stampNames folderIsDir entries) now d)
    ∧ (on_new_comment true (stampNames folderIsDir entries) sessionKey now d st).cache
        = st.cache ++ [mkEntry (stampNames folderIsDir entries) now d]
    ∧ (on_new_comment true (stampNames folderIsDir entries) sessionKey now d st).store
        = insert_comment_for st.store (mkEntry (stampNames folderIsDir entries) now d) := by
  have hrs : requestedStamp (stampNames folderIsDir entries) d = none := by
    simp [requestedStamp, h1, h2]
  refine ⟨?_, ?_, ?_, rfl, rfl, rfl, rfl⟩ <;>
    simp [mkEntry, hrs, stampTruthy]

/-- Witness for C5: a stale reference `"x.png"` against an empty stamp
directory, with client text `"hi"` preserved. -/
theorem invalid_stamp_accepted_witness :
    (mkEntry (stampNames true []) "12:00".toList
      { name := some "Al".toList, real_name := none, text := some "hi".toList,
        stamp := some "x.png".toList, stamp_filename := none }).stamp = none
    ∧ (mkEntry (stampNames true []) "12:00".toList
      { name := some "Al".toList, real_name := none, text := some "hi".toList,
        stamp := some "x.png".toList, stamp_filename := none }).text
        = "hi".toList :=
  ⟨(invalid_stamp_accepted true [] "k".toList "12:00".toList _ ⟨[], []⟩
      "x.png".toList (by decide) (by decide)).1,
   (invalid_stamp_accepted true [] "k".toList "12:00".toList _ ⟨[], []⟩
      "x.png".toList (by decide) (by decide)).2.2.1⟩

/-! ### C9 — a valid stamp forces empty text -/

/-- C9: when the submitted stamp reference is present in the attachment
catalog, the created message — the one appended to the cache, persisted
(its `text` column is the entry's `text`) and broadcast — has empty
text regardless of any client-supplied text. -/
theorem valid_stamp_clears_text (folderIsDir : Bool) (entries : List DirEntry)
    (sessionKey now : List Char) (d : SubmitData) (st : HState) (s : List Char)
    (h1 : pyOr d.stamp d.stamp_filename = some s)
    (h2 : s ∈ stampNames folderIsDir entries) :
    (mkEntry (stampNames folderIsDir entries) now d).text = []
    ∧ (mkEntry (stampNames folderIsDir entries) now d).stamp = some s
    ∧ (on_new_comment true (stampNames folderIsDir entries) sessionKey now d st).broadcast
        = some (mkEntry (stampNames folderIsDir entries) now d)
    ∧ (on_new_comment true (stampNames folderIsDir entries) sessionKey now d st).cache
        = st.cache ++ [mkEntry (stampNames folderIsDir entries) now d]
    ∧ (on_new_comment true (stampNames folderIsDir entries) sessionKey now d st).store
        = st.store ++ [{ name := (mkEntry (stampNames folderIsDir entries) now d).name,
                         real_name := (mkEntry (stampNames folderIsDir entries) now d).real_name,
                         text := [], time := now, stamp_filename := some s }] := by
  have hne : s ≠ [] := stampNames_ne_nil h2
  have hrs : requestedStamp (stampNames folderIsDir entries) d = some s := by
    simp [requestedStamp, h1, h2]
  have htr : stampTruthy (some s) = true := by
    simp [stampTruthy, hne]
  refine ⟨?_, ?_, rfl, rfl, ?_⟩
  · simp [mkEntry, hrs, htr]
  · simp [mkEntry, hrs]
  · simp [on_new_comment, insert_comment_for, mkEntry, hrs, htr]

/-- Witness for C9: a catalog holding `"a.png"` and a submission
referencing it while also supplying text. -/
theorem valid_stamp_clears_text_witness :
    (mkEntry (stampNames true [⟨"a.png".toList, true⟩]) "12:00".toList
      { name := none, real_name := none, text := some "hi".toList,
        stamp := some "a.png".toList, stamp_filename := none }).text = [] :=
  (valid_stamp_clears_text true [⟨"a.png".toList, true⟩] "k".toList
    "12:00".toList _ ⟨[], []⟩ "a.png".toList (by decide) (by decide)).1

/-! ### C1 — behaviour on durable-write failure -/

/-- C1 counterexample: on a failing durable write the claim "the message
is absent from the cached sequence … and the failure is logged" is
false.  At this concrete submission the entry *is* in the cache (the
handler appends to `message_logs[session_key]` before calling
`insert_comment_for`) and the handler logs nothing (it has no exception
handler, so the `logging.info` after the insert is never reached and no
failure log is written). -/
theorem append_failure_claim_false :
    ¬ (mkEntry [] "12:00".toList
          { name := some "Al".toList, real_name := none, text := some "hi".toList,
            stamp := none, stamp_filename := none }
        ∉ (on_new_comment false [] "k".toList "12:00".toList
            { name := some "Al".toList, real_name := none, text := some "hi".toList,
              stamp := none, stamp_filename := none } ⟨[], []⟩).cache
      ∧ (on_new_comment false [] "k".toList "12:00".toList
          { name := some "Al".toList, real_name := none, text := some "hi".toList,
            stamp := none, stamp_filename := none } ⟨[], []⟩).broadcast = none
      ∧ (on_new_comment false [] "k".toList "12:00".toList
          { name := some "Al".toList, real_name := none, text := some "hi".toList,
            stamp := none, stamp_filename := none } ⟨[], []⟩).logs ≠ []) := by
  decide

/-- C1 amended: when the durable write fails, the broadcast is indeed
not performed and the exception propagates out of the handler, but the
message *remains* in the cached in-memory sequence (the cache is
appended to before the write is attempted) and the handler logs nothing
at all — in particular the failure is not logged. -/
theorem append_failure_behavior (validNames : List (List Char))
    (sessionKey now : List Char) (d : SubmitData) (st : HState) :
    (on_new_comment false validNames sessionKey now d st).cache
        = st.cache ++ [mkEntry validNames now d]
    ∧ (on_new_comment false validNames sessionKey now d st).broadcast = none
    ∧ (on_new_comment false validNames sessionKey now d st).logs = []
    ∧ (on_new_comment false validNames sessionKey now d st).store = st.store
    ∧ (on_new_comment false validNames sessionKey now d st).raised = true :=
  ⟨rfl, rfl, rfl, rfl, rfl⟩

/-! ### C4 — `loadAll` after a sequence of appends -/

/-- The row `insert_comment_for` writes for an entry. -/
def persistedRow (e : Entry) : Row :=
  { name := e.name, real_name := e.real_name, text := e.text,
    time := e.time, stamp_filename := e.stamp }

theorem insert_comment_for_eq (rows : List Row) (e : Entry) :
    insert_comment_for rows e = rows ++ [persistedRow e] := rfl

/-- C4 counterexample: `loadAll` immediately after an `append` does
*not* return exactly the appended message: `fetch_all_for` reruns the
stored time through `to_hhmm`, so a message appended with time `"9:05"`
is read back with time `"09:05"`. -/
theorem loadAll_after_append_not_exact :
    fetch_all_for (insert_comment_for []
      { name := "n".toList, real_name := [], text := "hi".toList,
        time := "9:05".toList, stamp := none, stamp_url := none })
    ≠ [{ name := "n".toList, real_name := [], text := "hi".toList,
         time := "9:05".toList, stamp := none, stamp_url := none }] := by
  decide

theorem fetch_runAppends (ops : List (List Char × Entry)) :
    ∀ (s : Stores) (k : List Char),
      fetch_all_for (runAppends s ops k)
        = fetch_all_for (s k)
          ++ (ops.filter (fun p => p.1 == k)).map
               (fun p => fetchEntry (persistedRow p.2)) := by
  induction ops with
  | nil => intro s k; simp [runAppends, List.filter]
  | cons p t ih =>
    intro s k
    have h1 : runAppends s (p :: t) = runAppends (appendOne s p) t := rfl
    rw [h1, ih]
    by_cases hk : p.1 = k
    · have h2 : appendOne s p k = insert_comment_for (s k) p.2 := by
        simp [appendOne, hk]
      rw [h2, insert_comment_for_eq]
      simp [fetch_all_for, List.filter_cons, hk]
    · have h2 : appendOne s p k = s k := by
        simp [appendOne]
        intro h; exact absurd h.symm hk
      rw [h2]
      simp [List.filter_cons, hk]

/-- C4 amended: `loadAll` immediately after a sequence of `append`
calls returns the prior contents followed by exactly the messages
appended *to that session*, in call order, with no duplicates or
omissions — even when appends to other sessions are interleaved — for
messages whose `time` is a fixed point of the read-side normalization
`to_hhmm` and whose `stamp_url` agrees with the URL derived from their
`stamp` (both hold for every message the submission handler creates).
In general the read-back applies `to_hhmm` to `time` and recomputes
`stamp_url`, which is what the counterexample forces. -/
theorem fetchEntry_persistedRow (e : Entry) (h1 : to_hhmm e.time = e.time)
    (h2 : e.stamp_url = truthyStampUrl e.stamp) :
    fetchEntry (persistedRow e) = e := by
  obtain ⟨n, rn, tx, tm, stp, su⟩ := e
  simp only [fetchEntry, persistedRow] at *
  rw [h1, ← h2]

theorem loadAll_after_appends (ops : List (List Char × Entry)) (s : Stores)
    (k : List Char)
    (hnorm : ∀ p ∈ ops, p.1 = k →
      to_hhmm p.2.time = p.2.time ∧ p.2.stamp_url = truthyStampUrl p.2.stamp) :
    fetch_all_for (runAppends s ops k)
      = fetch_all_for (s k) ++ (ops.filter (fun p => p.1 == k)).map Prod.snd := by
  rw [fetch_runAppends]
  congr 1
  apply List.map_congr_left
  intro p hp
  have hmem := List.mem_filter.mp hp
  have hpk : p.1 = k := by simpa using hmem.2
  obtain ⟨h1, h2⟩ := hnorm p hmem.1 hpk
  exact fetchEntry_persistedRow p.2 h1 h2

/-- Concrete append sequence for C4's witness: two appends to session
`"a"` interleaved with one append to session `"b"`. -/
def witnessOps : List (List Char × Entry) :=
  [("a".toList, { name := "n1".toList, real_name := [], text := "x".toList,
                  time := "09:05".toList, stamp := none, stamp_url := none }),
   ("b".toList, { name := "n2".toList, real_name := [], text := "y".toList,
                  time := "10:00".toList, stamp := none, stamp_url := none }),
   ("a".toList, { name := "n3".toList, real_name := [], text := "z".toList,
                  time := "23:59".toList, stamp := none, stamp_url := none })]

/-- Initially empty per-session stores for C4's witness. -/
def emptyStores : Stores := fun _ => []

/-- Witness for C4's amended theorem: the interleaved appends of
`witnessOps`, read back from session `"a"`. -/
theorem loadAll_after_appends_witness :
    fetch_all_for (runAppends emptyStores witnessOps "a".toList)
      = fetch_all_for (emptyStores "a".toList)
        ++ (witnessOps.filter (fun p => p.1 == "a".toList)).map Prod.snd :=
  loadAll_after_appends witnessOps emptyStores "a".toList (by decide)

/-! ### C10 — read-time normalization of the stored time -/

theorem search_hhmm_of_first {r : Nat × List Char} :
    ∀ (v : List Char) (i : Nat), matchAt (v.drop i) = some r →
      (∀ j < i, matchAt (v.drop j) = none) → search_hhmm v = some r := by
  intro v
  induction v with
  | nil =>
    intro i hm _
    rw [List.drop_nil] at hm
    exact absurd hm (by simp [matchAt])
  | cons c cs ih =>
    intro i hm hnone
    cases i with
    | zero =>
      rw [List.drop_zero] at hm
      simp [search_hhmm, hm]
    | succ n =>
      have h0 : matchAt (c :: cs) = none := by
        have := hnone 0 (Nat.succ_pos n)
        simpa using this
      have hm' : matchAt (cs.drop n) = some r := by
        simpa [List.drop_succ_cons] using hm
      have hnone' : ∀ j < n, matchAt (cs.drop j) = none := by
        intro j hj
        have := hnone (j + 1) (Nat.succ_lt_succ hj)
        simpa [List.drop_succ_cons] using this
      simp only [search_hhmm, h0]
      exact ih n hm' hnone'

theorem search_hhmm_of_none :
    ∀ v : List Char, (∀ j, matchAt (v.drop j) = none) → search_hhmm v = none := by
  intro v
  induction v with
  | nil => intro _; rfl
  | cons c cs ih =>
    intro hnone
    have h0 : matchAt (c :: cs) = none := by simpa using hnone 0
    simp only [search_hhmm, h0]
    exact ih fun j => by simpa [List.drop_succ_cons] using hnone (j + 1)

/-- C10: every message read back from the store has its `time` field
normalized: `fetch_all_for` maps each stored time through `to_hhmm`,
and `to_hhmm` returns `""` on an empty (or missing, which Python
falsiness treats identically) value; when the regex
`(\d{1,2}):(\d{2})` first matches at position `i` (greedy two-digit
hour first, no match at any earlier position), the result is that match
with the hour's numeric value zero-padded to two digits; and when no
position matches, the value is returned unchanged. -/
theorem read_time_normalized :
    (∀ rows : List Row,
        (fetch_all_for rows).map Entry.time = rows.map (fun r => to_hhmm r.time))
    ∧ to_hhmm [] = []
    ∧ (∀ (v : List Char) (i hr : Nat) (mm : List Char),
        matchAt (v.drop i) = some (hr, mm) → (∀ j < i, matchAt (v.drop j) = none) →
        to_hhmm v = pad2 hr ++ ':' :: mm)
    ∧ (∀ v : List Char, (∀ j, matchAt (v.drop j) = none) → to_hhmm v = v) := by
  refine ⟨?_, rfl, ?_, ?_⟩
  · intro rows; simp [fetch_all_for, fetchEntry]
  · intro v i hr mm hm hnone
    have hv : v ≠ [] := by
      intro hnil
      subst hnil
      rw [List.drop_nil] at hm
      exact absurd hm (by simp [matchAt])
    rw [to_hhmm, if_neg hv, search_hhmm_of_first v i hm hnone]
  · intro v hnone
    by_cases hv : v = []
    · simp [to_hhmm, hv]
    · rw [to_hhmm, if_neg hv, search_hhmm_of_none v hnone]

/-- Witness for C10 at the stored time `"a9:05"`: the first match is at
position 1 with a one-digit hour, zero-padded on read-back. -/
theorem read_time_normalized_witness :
    to_hhmm "a9:05".toList = pad2 9 ++ ':' :: "05".toList :=
  read_time_normalized.2.2.1 "a9:05".toList 1 9 "05".toList
    (by decide) (by decide)

/-! ### C2 — two simultaneous first-time `ensure_session` calls -/

theorem interleave_nil_left {ys zs : List RegAction}
    (h : Interleave [] ys zs) : zs = ys := by
  induction ys generalizing zs with
  | nil => cases h; rfl
  | cons y t ih =>
    cases h with
    | right h' => rw [ih h']

theorem interleave_two_two {a b c d : RegAction} {l : List RegAction}
    (h : Interleave [a, b] [c, d] l) :
    l = [a, b, c, d] ∨ l = [a, c, b, d] ∨ l = [a, c, d, b]
    ∨ l = [c, a, b, d] ∨ l = [c, a, d, b] ∨ l = [c, d, a, b] := by
  cases h with
  | left h1 =>
    cases h1 with
    | left h2 =>
      have := interleave_nil_left h2
      subst this
      exact Or.inl rfl
    | right h2 =>
      cases h2 with
      | left h3 =>
        have := interleave_nil_left h3
        subst this
        exact Or.inr (Or.inl rfl)
      | right h3 =>
        cases h3 with
        | left h4 =>
          have := interleave_nil_left h4
          subst this
          exact Or.inr (Or.inr (Or.inl rfl))
  | right h1 =>
    cases h1 with
    | left h2 =>
      cases h2 with
      | left h3 =>
        have := interleave_nil_left h3
        subst this
        exact Or.inr (Or.inr (Or.inr (Or.inl rfl)))
      | right h3 =>
        cases h3 with
        | left h4 =>
          have := interleave_nil_left h4
          subst this
          exact Or.inr (Or.inr (Or.inr (Or.inr (Or.inl rfl))))
    | right h2 =>
      cases h2 with
      | left h3 =>
        cases h3 with
        | left h4 =>
          have := interleave_nil_left h4
          subst this
          exact Or.inr (Or.inr (Or.inr (Or.inr (Or.inr rfl))))

/-- C2 counterexample: "exactly one store initialization" fails.  Under
the schedule in which both callers run their unlocked `init_db_for`
before either enters the locked block — a legitimate interleaving of
the two calls — `init_db_for` is invoked twice, because `ensure_session`
calls it unconditionally outside `storage_lock`. -/
theorem ensure_session_double_init :
    Interleave [RegAction.init, RegAction.lockedEnsure]
      [RegAction.init, RegAction.lockedEnsure]
      [RegAction.init, RegAction.init, RegAction.lockedEnsure, RegAction.lockedEnsure]
    ∧ (runReg ⟨false, 0, 0, 0, none, []⟩
        [RegAction.init, RegAction.init, RegAction.lockedEnsure,
         RegAction.lockedEnsure]).initCalls = 2
    ∧ (runReg ⟨false, 0, 0, 0, none, []⟩
        [RegAction.init, RegAction.init, RegAction.lockedEnsure,
         RegAction.lockedEnsure]).initCalls ≠ 1 :=
  ⟨.left (.right (.left (.right .nil))), by decide, by decide⟩

/-- C2 amended: under every interleaving of two simultaneous first-time
`ensure_session` calls for the same unseen key, the expensive history
load (`fetch_all_for`) runs exactly once and the registry is left with
exactly one cached entry, the load of the durable store; the backing
table is actually created only once (the DDL is idempotent), but
`init_db_for` itself is invoked by both callers, i.e. twice — not once,
as the counterexample shows the claim would require. -/
theorem ensure_session_race (acts : List RegAction) (st0 : RegState)
    (h0 : st0.cached = none) (h1 : st0.initCalls = 0) (h2 : st0.fetchCalls = 0)
    (h3 : st0.createEvents = 0) (h4 : st0.tableExists = false)
    (hI : Interleave [RegAction.init, RegAction.lockedEnsure]
            [RegAction.init, RegAction.lockedEnsure] acts) :
    (runReg st0 acts).fetchCalls = 1
    ∧ (runReg st0 acts).cached = some (fetch_all_for st0.store)
    ∧ (runReg st0 acts).createEvents = 1
    ∧ (runReg st0 acts).initCalls = 2 := by
  rcases interleave_two_two hI with rfl | rfl | rfl | rfl | rfl | rfl <;>
    refine ⟨?_, ?_, ?_, ?_⟩ <;>
    simp [runReg, stepReg, h0, h1, h2, h3, h4]

/-- Witness for C2's amended theorem: the fully sequential schedule,
from the empty initial registry state. -/
theorem ensure_session_race_witness :
    (runReg ⟨false, 0, 0, 0, none, []⟩
      [RegAction.init, RegAction.lockedEnsure, RegAction.init,
       RegAction.lockedEnsure]).fetchCalls = 1
    ∧ (runReg ⟨false, 0, 0, 0, none, []⟩
        [RegAction.init, RegAction.lockedEnsure, RegAction.init,
         RegAction.lockedEnsure]).cached
        = some (fetch_all_for (RegState.store ⟨false, 0, 0, 0, none, []⟩))
    ∧ (runReg ⟨false, 0, 0, 0, none, []⟩
        [RegAction.init, RegAction.lockedEnsure, RegAction.init,
         RegAction.lockedEnsure]).createEvents = 1
    ∧ (runReg ⟨false, 0, 0, 0, none, []⟩
        [RegAction.init, RegAction.lockedEnsure, RegAction.init,
         RegAction.lockedEnsure]).initCalls = 2 :=
  ensure_session_race _ ⟨false, 0, 0, 0, none, []⟩ rfl rfl rfl rfl rfl
    (.left (.left (.right (.right .nil))))

end ServerRelay
